import Mathlib

/-!
Verification of the `toolbox` bedrock storage primitives against their
natural-language specification.

The development shallowly embeds the Rust sources:
  * `packed_bits/src/bit_ops.rs` — bit-level get/set on a byte buffer;
  * `packed_bits/src/container.rs` — the persistent packed bit-array
    container (in-memory `raw_bytes::Container<u8>` backend, i.e. a
    `Vec<u8>`, is modelled as `List Nat` of byte values);
  * `mtf/src/lib.rs` — the MTF self-describing type format decoder;
  * `mtf/src/dynamic.rs` — the dynamic reflective field accessor.

Machine integers are modelled as `Nat` with explicit `% 2^w` where the
source truncates (`as u32` casts, LE byte encodings).  A Rust panic
(out-of-bounds slice indexing, failed `assert!`) is modelled as `none` of
an `Option` result; Rust `Result` is `Except`.  For the in-memory storage
backend the `raw_bytes::ContainerError` paths are unreachable (pushing to
a `Vec<u8>` and taking a mutable slice of it always succeed), so the
corresponding `Result` layers collapse in the model.
-/

/-! ## Bit-ops primitive (`packed_bits/src/bit_ops.rs`) -/

/-- The bit of `slice` at absolute bit position `pos` (bit `pos % 8`,
least-significant first, of byte `pos / 8`). -/
def bitAt (slice : List Nat) (pos : Nat) : Bool :=
  Nat.testBit (slice.getD (pos / 8) 0) (pos % 8)

/-- One byte-level update of `set_bits`'s loop body:
`slice[byte] |= 1 << bit_in_byte` when the written bit is 1, and
`slice[byte] &= !(1 << bit_in_byte)` (a `u8` complement, i.e. XOR with
255) when it is 0. -/
def setBitInByte (b : Nat) (k : Nat) (bit : Bool) : Nat :=
  if bit then b ||| (1 <<< k) else b &&& (255 ^^^ (1 <<< k))

/-- Writing one bit at absolute position `pos`; `none` models the panic of
Rust's `slice[byte]` indexing when `byte` is out of bounds. -/
def setBit (slice : List Nat) (pos : Nat) (bit : Bool) : Option (List Nat) :=
  if pos / 8 < slice.length then
    some (slice.set (pos / 8) (setBitInByte (slice.getD (pos / 8) 0) (pos % 8) bit))
  else
    none

/-- The loop `for i in 0..bit_width` of `set_bits`, with `i` the next loop
index and `rem` the number of remaining iterations. -/
def setBitsLoop (slice : List Nat) (off : Nat) (masked : Nat) :
    Nat → Nat → Option (List Nat)
  | _, 0 => some slice
  | i, rem + 1 =>
    match setBit slice (off + i) (Nat.testBit masked i) with
    | some s => setBitsLoop s off masked (i + 1) rem
    | none => none

/-- `set_bits(slice, bit_offset, bit_width, value)`: writes the low
`bit_width` bits of `value` (`masked = value & ((1u64 << bit_width) - 1)`)
into `slice` starting at bit `bit_offset`. -/
def set_bits (slice : List Nat) (bit_offset bit_width value : Nat) :
    Option (List Nat) :=
  setBitsLoop slice bit_offset (value &&& (2 ^ bit_width - 1)) 0 bit_width

/-- The loop `for i in 0..bit_width` of `get_bits`, accumulating
`value |= (bit as u64) << i` where `bit = (slice[byte] >> bit_in_byte) & 1`. -/
def getBitsLoop (slice : List Nat) (off : Nat) :
    Nat → Nat → Nat → Option Nat
  | _, 0, acc => some acc
  | i, rem + 1, acc =>
    if (off + i) / 8 < slice.length then
      getBitsLoop slice off (i + 1) rem
        (acc ||| ((((slice.getD ((off + i) / 8) 0) >>> ((off + i) % 8)) &&& 1) <<< i))
    else
      none

/-- `get_bits(slice, bit_offset, bit_width)`. -/
def get_bits (slice : List Nat) (bit_offset bit_width : Nat) : Option Nat :=
  getBitsLoop slice bit_offset 0 bit_width 0

example : set_bits [0, 0, 0, 0, 0, 0, 0, 0] 3 5 21 =
    some [168, 0, 0, 0, 0, 0, 0, 0] := by decide

example : get_bits [168, 0, 0, 0, 0, 0, 0, 0] 3 5 = some 21 := by decide

/-! ### Bit-level characterisation of `set_bits` and `get_bits` -/

theorem getD_eq_getElem? (l : List Nat) (i : Nat) : l.getD i 0 = (l[i]?).getD 0 := by
  simp [List.getD]

theorem setBitInByte_testBit (b k : Nat) (bit : Bool) (j : Nat) (hj : j < 8) (hk : k < 8) :
    Nat.testBit (setBitInByte b k bit) j = if j = k then bit else Nat.testBit b j := by
  have h1 : (1 <<< k) = 2 ^ k := by simp [Nat.shiftLeft_eq]
  have h255 : (255 : Nat) = 2 ^ 8 - 1 := by norm_num
  cases bit with
  | true =>
    simp only [setBitInByte, if_true]
    rw [h1, Nat.testBit_or, Nat.testBit_two_pow]
    by_cases h : j = k
    · subst h; simp
    · have hne : ¬(k = j) := fun hc => h hc.symm
      simp [h, hne]
  | false =>
    simp only [setBitInByte, Bool.false_eq_true, if_false]
    rw [h1, h255, Nat.testBit_and, Nat.testBit_xor, Nat.testBit_two_pow_sub_one,
      Nat.testBit_two_pow]
    by_cases h : j = k
    · subst h; simp [hj]
    · have hne : ¬(k = j) := fun hc => h hc.symm
      simp [h, hj, hne]

theorem setBit_spec (slice : List Nat) (pos : Nat) (bit : Bool)
    (h : pos / 8 < slice.length) :
    ∃ out, setBit slice pos bit = some out ∧ out.length = slice.length ∧
      (∀ q, bitAt out q = if q = pos then bit else bitAt slice q) ∧
      (∀ j, j ≠ pos / 8 → out.getD j 0 = slice.getD j 0) ∧
      ((∀ b ∈ slice, b < 256) → ∀ b ∈ out, b < 256) := by
  refine ⟨slice.set (pos / 8) (setBitInByte (slice.getD (pos / 8) 0) (pos % 8) bit),
    by simp [setBit, h], by simp, ?_, ?_, ?_⟩
  · intro q
    by_cases hq : q / 8 = pos / 8
    · have hset : (slice.set (pos / 8)
          (setBitInByte (slice.getD (pos / 8) 0) (pos % 8) bit)).getD (q / 8) 0 =
          setBitInByte (slice.getD (pos / 8) 0) (pos % 8) bit := by
        rw [getD_eq_getElem?, hq, List.getElem?_set_eq_of_lt _ h]
        rfl
      have hqs : bitAt slice q = Nat.testBit (slice.getD (pos / 8) 0) (q % 8) := by
        rw [bitAt, hq]
      rw [bitAt, hset, setBitInByte_testBit _ _ _ _ (Nat.mod_lt _ (by norm_num))
        (Nat.mod_lt _ (by norm_num)), hqs]
      have hiff : q % 8 = pos % 8 ↔ q = pos := by omega
      by_cases hqq : q = pos
      · simp [hqq]
      · simp [hqq, hiff.not.mpr hqq]
    · have hne : q ≠ pos := by omega
      have : (slice.set (pos / 8)
          (setBitInByte (slice.getD (pos / 8) 0) (pos % 8) bit)).getD (q / 8) 0 =
          slice.getD (q / 8) 0 := by
        simp only [getD_eq_getElem?]
        rw [List.getElem?_set_ne (fun hc => hq hc.symm)]
      rw [bitAt, this, bitAt, if_neg hne]
  · intro j hj
    simp only [getD_eq_getElem?]
    rw [List.getElem?_set_ne (fun hc => hj hc.symm)]
  · intro hb b hbmem
    rcases List.mem_or_eq_of_mem_set hbmem with hmem | heq
    · exact hb b hmem
    · subst heq
      have hold : slice.getD (pos / 8) 0 < 256 := by
        rw [getD_eq_getElem?, List.getElem?_eq_getElem h]
        exact hb _ (List.getElem_mem h)
      cases bit with
      | true =>
        simp only [setBitInByte, if_true]
        have : (1 <<< (pos % 8)) < 256 := by
          rw [Nat.shiftLeft_eq, one_mul]
          calc 2 ^ (pos % 8) ≤ 2 ^ 7 :=
                Nat.pow_le_pow_right (by norm_num) (by omega)
            _ < 256 := by norm_num
        exact Nat.or_lt_two_pow (n := 8) hold this
      | false =>
        simp only [setBitInByte, Bool.false_eq_true, if_false]
        exact lt_of_le_of_lt Nat.and_le_left hold

theorem setBitsLoop_spec (off masked : Nat) (rem : Nat) :
    ∀ (i : Nat) (slice : List Nat),
      (∀ t, t < rem → (off + i + t) / 8 < slice.length) →
      ∃ out, setBitsLoop slice off masked i rem = some out ∧
        out.length = slice.length ∧
        (∀ q, bitAt out q =
          if off + i ≤ q ∧ q < off + i + rem then Nat.testBit masked (q - off)
          else bitAt slice q) ∧
        (∀ j, (∀ t, t < rem → (off + i + t) / 8 ≠ j) → out.getD j 0 = slice.getD j 0) ∧
        ((∀ b ∈ slice, b < 256) → ∀ b ∈ out, b < 256) := by
  induction rem with
  | zero =>
    intro i slice _
    refine ⟨slice, rfl, rfl, ?_, fun _ _ => rfl, fun hb => hb⟩
    intro q
    rw [if_neg (by omega)]
  | succ rem ih =>
    intro i slice hb
    have h0 : (off + i) / 8 < slice.length := by
      have := hb 0 (by omega)
      simpa using this
    obtain ⟨s, hs_eq, hs_len, hs_bits, hs_bytes, hs_bound⟩ :=
      setBit_spec slice (off + i) (Nat.testBit masked i) h0
    have hb' : ∀ t, t < rem → (off + (i + 1) + t) / 8 < s.length := by
      intro t ht
      rw [hs_len]
      have := hb (t + 1) (by omega)
      have harith : off + i + (t + 1) = off + (i + 1) + t := by omega
      rwa [harith] at this
    obtain ⟨out, hout_eq, hout_len, hout_bits, hout_bytes, hout_bound⟩ := ih (i + 1) s hb'
    refine ⟨out, ?_, by rw [hout_len, hs_len], ?_, ?_, ?_⟩
    · rw [setBitsLoop, hs_eq]
      exact hout_eq
    · intro q
      rw [hout_bits q, hs_bits q]
      by_cases h1 : off + (i + 1) ≤ q ∧ q < off + (i + 1) + rem
      · rw [if_pos h1, if_pos (by omega)]
      · by_cases h2 : q = off + i
        · rw [if_neg h1, if_pos h2, if_pos (by omega)]
          congr 1
          omega
        · rw [if_neg h1, if_neg h2, if_neg (by omega)]
    · intro j hj
      rw [hout_bytes j (fun t ht => by
          have := hj (t + 1) (by omega)
          have harith : off + i + (t + 1) = off + (i + 1) + t := by omega
          rwa [harith] at this),
        hs_bytes j (by have h00 := hj 0 (by omega); omega)]
    · intro hball
      exact hout_bound (hs_bound hball)

theorem set_bits_spec (slice : List Nat) (off w v : Nat)
    (h : off + w ≤ 8 * slice.length) :
    ∃ out, set_bits slice off w v = some out ∧
      out.length = slice.length ∧
      (∀ q, bitAt out q =
        if off ≤ q ∧ q < off + w then Nat.testBit v (q - off) else bitAt slice q) ∧
      (∀ j, (∀ t, t < w → (off + t) / 8 ≠ j) → out.getD j 0 = slice.getD j 0) ∧
      ((∀ b ∈ slice, b < 256) → ∀ b ∈ out, b < 256) := by
  have hbounds : ∀ t, t < w → (off + 0 + t) / 8 < slice.length := by
    intro t ht
    rw [Nat.div_lt_iff_lt_mul (by norm_num)]
    omega
  obtain ⟨out, hout_eq, hout_len, hout_bits, hout_bytes, hout_bound⟩ :=
    setBitsLoop_spec off (v &&& (2 ^ w - 1)) w 0 slice hbounds
  refine ⟨out, hout_eq, hout_len, ?_, ?_, hout_bound⟩
  · intro q
    rw [hout_bits q]
    by_cases hq : off ≤ q ∧ q < off + w
    · rw [if_pos (by omega), if_pos hq, Nat.testBit_and, Nat.testBit_two_pow_sub_one]
      have : q - off < w := by omega
      simp [this]
    · rw [if_neg (by omega), if_neg hq]
  · intro j hj
    exact hout_bytes j (fun t ht => by
      have harith : off + 0 + t = off + t := by omega
      rw [harith]
      exact hj t ht)

theorem single_bit_testBit (b k i j : Nat) :
    Nat.testBit (((b >>> k) &&& 1) <<< i) j = (decide (j = i) && Nat.testBit b k) := by
  have hx : (b >>> k) &&& 1 = b / 2 ^ k % 2 := by
    rw [Nat.shiftRight_eq_div_pow, Nat.and_one_is_mod]
  have htb : Nat.testBit b k = decide (b / 2 ^ k % 2 = 1) := Nat.testBit_to_div_mod
  rw [Nat.testBit_shiftLeft, hx, htb]
  have h2 : b / 2 ^ k % 2 = 0 ∨ b / 2 ^ k % 2 = 1 := by omega
  rcases h2 with h | h
  · rw [h]
    simp [Nat.zero_testBit]
  · rw [h]
    by_cases hj : j = i
    · subst hj
      simp
    · rcases Nat.lt_or_ge j i with h' | h'
      · simp [Nat.not_le.mpr h', hj]
      · have hne : j - i ≠ 0 := by omega
        rw [show (1 : Nat) = 2 ^ 0 by norm_num, Nat.testBit_two_pow]
        simp [hj]
        omega

theorem getBitsLoop_spec (slice : List Nat) (off : Nat) (rem : Nat) :
    ∀ (i acc : Nat),
      (∀ t, t < rem → (off + i + t) / 8 < slice.length) →
      ∃ r, getBitsLoop slice off i rem acc = some r ∧
        ∀ j, Nat.testBit r j =
          (Nat.testBit acc j ||
            (decide (i ≤ j) && decide (j < i + rem) && bitAt slice (off + j))) := by
  induction rem with
  | zero =>
    intro i acc _
    refine ⟨acc, rfl, ?_⟩
    intro j
    by_cases hA : i ≤ j
    · have hB : ¬j < i + 0 := by omega
      simp [hB]
    · simp [hA]
  | succ rem ih =>
    intro i acc hb
    have h0 : (off + i) / 8 < slice.length := by
      have := hb 0 (by omega)
      simpa using this
    have hb' : ∀ t, t < rem → (off + (i + 1) + t) / 8 < slice.length := by
      intro t ht
      have := hb (t + 1) (by omega)
      have harith : off + i + (t + 1) = off + (i + 1) + t := by omega
      rwa [harith] at this
    obtain ⟨r, hr_eq, hr_bits⟩ := ih (i + 1)
      (acc ||| ((((slice.getD ((off + i) / 8) 0) >>> ((off + i) % 8)) &&& 1) <<< i)) hb'
    refine ⟨r, ?_, ?_⟩
    · rw [getBitsLoop, if_pos h0]
      exact hr_eq
    · intro j
      rw [hr_bits j, Nat.testBit_or, single_bit_testBit]
      have hbit : Nat.testBit (slice.getD ((off + i) / 8) 0) ((off + i) % 8) =
          bitAt slice (off + i) := rfl
      rw [hbit]
      by_cases hj : j = i
      · subst hj
        have hd1 : decide (j ≤ j) = true := by simp
        have hd2 : decide (j < j + (rem + 1)) = true := by simp
        have hd3 : decide (j + 1 ≤ j) = false := by simp
        rw [hd1, hd2, hd3]
        simp [Bool.or_assoc, Bool.or_comm]
      · have hd0 : decide (j = i) = false := decide_eq_false hj
        have hrange : (decide (i + 1 ≤ j) && decide (j < i + 1 + rem)) =
            (decide (i ≤ j) && decide (j < i + (rem + 1))) := by
          by_cases hA : i + 1 ≤ j
          · have hA' : i ≤ j := by omega
            by_cases hB : j < i + 1 + rem
            · have hB' : j < i + (rem + 1) := by omega
              simp [hA, hA', hB, hB']
            · have hB' : ¬j < i + (rem + 1) := by omega
              simp [hA, hB, hB']
          · have hA' : ¬i ≤ j := by omega
            simp [hA, hA']
        rw [hd0, hrange]
        simp

theorem get_bits_spec (slice : List Nat) (off w : Nat)
    (h : off + w ≤ 8 * slice.length) :
    ∃ r, get_bits slice off w = some r ∧
      ∀ j, Nat.testBit r j = (decide (j < w) && bitAt slice (off + j)) := by
  have hbounds : ∀ t, t < w → (off + 0 + t) / 8 < slice.length := by
    intro t ht
    rw [Nat.div_lt_iff_lt_mul (by norm_num)]
    omega
  obtain ⟨r, hr_eq, hr_bits⟩ := getBitsLoop_spec slice off w 0 0 hbounds
  refine ⟨r, hr_eq, ?_⟩
  intro j
  rw [hr_bits j]
  simp [Nat.zero_testBit]

/-! ### Claim C1: bit round-trip -/

/-- C1. Bit round-trip: for every byte buffer, every `bit_offset`, every
`bit_width` in `1..=32` with `bit_offset + bit_width ≤ buffer.len() * 8`,
and every `value < 2^bit_width`, `get_bits` immediately after `set_bits`
at the same offset and width returns `value`, regardless of byte
alignment. -/
theorem set_bits_get_bits_roundtrip (buffer : List Nat)
    (bit_offset bit_width value : Nat)
    (hw1 : 1 ≤ bit_width) (hw2 : bit_width ≤ 32)
    (hb : bit_offset + bit_width ≤ 8 * buffer.length)
    (hv : value < 2 ^ bit_width) :
    ∃ buf', set_bits buffer bit_offset bit_width value = some buf' ∧
      get_bits buf' bit_offset bit_width = some value := by
  obtain ⟨out, hout_eq, hout_len, hout_bits, _, _⟩ :=
    set_bits_spec buffer bit_offset bit_width value hb
  obtain ⟨r, hr_eq, hr_bits⟩ :=
    get_bits_spec out bit_offset bit_width (by rw [hout_len]; exact hb)
  refine ⟨out, hout_eq, ?_⟩
  rw [hr_eq]
  congr 1
  apply Nat.eq_of_testBit_eq
  intro j
  rw [hr_bits j]
  by_cases hj : j < bit_width
  · have hin : bit_offset ≤ bit_offset + j ∧ bit_offset + j < bit_offset + bit_width := by
      omega
    rw [hout_bits (bit_offset + j), if_pos hin, Nat.add_sub_cancel_left]
    simp [hj]
  · have hhigh : value.testBit j = false :=
      Nat.testBit_lt_two_pow
        (lt_of_lt_of_le hv (Nat.pow_le_pow_right (by norm_num) (by omega)))
    rw [hhigh]
    simp [hj]

/-- Witness for C1 at a byte-unaligned offset: buffer of 3 bytes, offset 5,
width 9, value 387. -/
theorem set_bits_get_bits_roundtrip_witness :
    1 ≤ 9 ∧ 9 ≤ 32 ∧ 5 + 9 ≤ 8 * ([170, 170, 170] : List Nat).length ∧ 387 < 2 ^ 9 ∧
      (∃ buf', set_bits [170, 170, 170] 5 9 387 = some buf' ∧
        get_bits buf' 5 9 = some 387) :=
  ⟨by decide, by decide, by decide, by decide,
    set_bits_get_bits_roundtrip [170, 170, 170] 5 9 387
      (by decide) (by decide) (by decide) (by decide)⟩

/-! ### Claim C7: frame property of `set_bits` -/

/-- C7. No cross-contamination: `set_bits(buffer, o1, w1, value)` modifies
only the bits at positions `[o1, o1 + w1)`.  Every bit of the buffer
outside that range — including the untouched bits of the partially
written first and last bytes — is unchanged; bytes whose eight bit
positions are entirely outside the range are unchanged verbatim; byte
values stay below 256. -/
theorem set_bits_frame (buffer : List Nat) (o1 w1 value : Nat)
    (hw1 : 1 ≤ w1) (hw2 : w1 ≤ 32)
    (hb : o1 + w1 ≤ 8 * buffer.length)
    (hbytes : ∀ b ∈ buffer, b < 256) :
    ∃ buf', set_bits buffer o1 w1 value = some buf' ∧
      buf'.length = buffer.length ∧
      (∀ q, q < 8 * buffer.length → q < o1 ∨ o1 + w1 ≤ q →
        bitAt buf' q = bitAt buffer q) ∧
      (∀ j, j < buffer.length → 8 * j + 8 ≤ o1 ∨ o1 + w1 ≤ 8 * j →
        buf'.getD j 0 = buffer.getD j 0) ∧
      (∀ b ∈ buf', b < 256) := by
  obtain ⟨out, hout_eq, hout_len, hout_bits, hout_bytes, hout_bound⟩ :=
    set_bits_spec buffer o1 w1 value hb
  refine ⟨out, hout_eq, hout_len, ?_, ?_, hout_bound hbytes⟩
  · intro q _ hq
    rw [hout_bits q, if_neg (by omega)]
  · intro j _ hj
    apply hout_bytes
    intro t ht
    omega

/-- Witness for C7: writing width 9 at offset 5 into a 4-byte buffer. -/
theorem set_bits_frame_witness :
    1 ≤ 9 ∧ 9 ≤ 32 ∧ 5 + 9 ≤ 8 * ([255, 255, 255, 255] : List Nat).length ∧
      (∀ b ∈ ([255, 255, 255, 255] : List Nat), b < 256) ∧
      (∃ buf', set_bits [255, 255, 255, 255] 5 9 0 = some buf' ∧
        buf'.length = ([255, 255, 255, 255] : List Nat).length ∧
        (∀ q, q < 8 * ([255, 255, 255, 255] : List Nat).length → q < 5 ∨ 5 + 9 ≤ q →
          bitAt buf' q = bitAt [255, 255, 255, 255] q) ∧
        (∀ j, j < ([255, 255, 255, 255] : List Nat).length →
          8 * j + 8 ≤ 5 ∨ 5 + 9 ≤ 8 * j →
          buf'.getD j 0 = ([255, 255, 255, 255] : List Nat).getD j 0) ∧
        (∀ b ∈ buf', b < 256)) :=
  ⟨by decide, by decide, by decide, by decide,
    set_bits_frame [255, 255, 255, 255] 5 9 0
      (by decide) (by decide) (by decide) (by decide)⟩

/-! ## Packed bit-array container (`packed_bits/src/container.rs`)

The in-memory `raw_bytes::Container<u8>` backend is a `Vec<u8>`, modelled
as `List Nat`; its `push`, `as_mut_slice` and indexing into the (always
≥ 12 byte) header region never fail for this backend, so the source's
`Result` plumbing around them carries no error in the model.  The
`ContainerError`-wrapping variant is omitted for this reason. -/

instance exceptDecEq {ε α : Type} [DecidableEq ε] [DecidableEq α] :
    DecidableEq (Except ε α) := fun a b =>
  match a, b with
  | .error e, .error e' =>
    if h : e = e' then isTrue (by rw [h]) else isFalse (fun hc => by injection hc; exact h (by assumption))
  | .error _, .ok _ => isFalse (fun hc => by injection hc)
  | .ok _, .error _ => isFalse (fun hc => by injection hc)
  | .ok x, .ok y =>
    if h : x = y then isTrue (by rw [h]) else isFalse (fun hc => by injection hc; exact h (by assumption))

inductive PackedBitsError where
  | InvalidBitWidth (n : Nat)
  | ValueOverflow (v : Nat) (n : Nat)
  | IndexOutOfBounds (i : Nat) (l : Nat)
  | InsufficientBytes (n : Nat)
  | InvalidMagic
  | InvalidN (expected : Nat) (found : Nat)
  | StorageTooSmall
  | StorageReadOnly
  | ResizeFailed
  | Unexpected
deriving DecidableEq, Repr

/-- `b"PKBT"`. -/
def pkbtMagic : List Nat := [80, 75, 66, 84]

/-- `HEADER_SIZE`. -/
def HEADER_SIZE : Nat := 12

/-- `u32::to_le_bytes` of `v` (already truncated to `u32` by the caller
where the source writes `as u32`). -/
def le4 (v : Nat) : List Nat :=
  [v % 256, v / 256 % 256, v / 65536 % 256, v / 16777216 % 256]

/-- `u32::from_le_bytes` of the four bytes of `data` at `pos` (the source
always guards `pos + 4` against the length before reading). -/
def readLe4 (data : List Nat) (pos : Nat) : Nat :=
  data.getD pos 0 + 256 * data.getD (pos + 1) 0 + 65536 * data.getD (pos + 2) 0 +
    16777216 * data.getD (pos + 3) 0

/-- Overwrite the four bytes of `data` at `pos` with the LE encoding of
`v % 2^32` (`(v as u32).to_le_bytes()`). -/
def writeLe4 (data : List Nat) (pos : Nat) (v : Nat) : List Nat :=
  ((((data.set pos (v % 256)).set (pos + 1) (v / 256 % 256)).set
    (pos + 2) (v / 65536 % 256)).set (pos + 3) (v / 16777216 % 256))

structure PackedBitsContainer where
  storage : List Nat
  len : Nat
deriving DecidableEq, Repr

namespace PackedBitsContainer

/-- `validate_n::<N>()`. -/
def validate_n (N : Nat) : Except PackedBitsError Unit :=
  if 1 ≤ N ∧ N ≤ 32 then .ok () else .error (.InvalidBitWidth N)

/-- `write_header(storage, len)`: magic at 0..4, `(N as u32)` LE at 4..8,
`(len as u32)` LE at 8..12. -/
def write_header (N : Nat) (storage : List Nat) (len : Nat) : List Nat :=
  writeLe4 (writeLe4 ((((storage.set 0 80).set 1 75).set 2 66).set 3 84) 4 (N % 4294967296))
    8 (len % 4294967296)

/-- `new_in_memory()`. -/
def new_in_memory (N : Nat) : Except PackedBitsError PackedBitsContainer :=
  match validate_n N with
  | .error e => .error e
  | .ok _ =>
    .ok { storage := write_header N (List.replicate HEADER_SIZE 0) 0, len := 0 }

/-- `from_storage(storage)`. -/
def from_storage (N : Nat) (storage : List Nat) :
    Except PackedBitsError PackedBitsContainer :=
  match validate_n N with
  | .error e => .error e
  | .ok _ =>
    if storage.length < HEADER_SIZE then
      .error .StorageTooSmall
    else if storage.take 4 ≠ pkbtMagic then
      .error .InvalidMagic
    else
      let stored_n := readLe4 storage 4
      if stored_n ≠ N then
        .error (.InvalidN N stored_n)
      else
        .ok { storage := storage, len := readLe4 storage 8 }

/-- `update_len_in_header()`. -/
def update_len_in_header (c : PackedBitsContainer) : PackedBitsContainer :=
  { c with storage := writeLe4 c.storage 8 (c.len % 4294967296) }

/-- `ensure_capacity(total_bits)`: grow the storage byte-at-a-time to
`HEADER_SIZE + total_bits.div_ceil(8)` bytes. -/
def ensure_capacity (storage : List Nat) (total_bits : Nat) : List Nat :=
  let required_bytes := HEADER_SIZE + (total_bits + 7) / 8
  if storage.length < required_bytes then
    storage ++ List.replicate (required_bytes - storage.length) 0
  else
    storage

/-- The source's `data_bit_offset_static(index)`,
`HEADER_SIZE * 8 + index * N`.  NOTE: `push` and `set` pass the BIT
position `len * N` (resp. `index * N`) as `index`, so the offset they
obtain is `96 + index * N * N` while `get` reads at `96 + index * N`. -/
def data_bit_offset_static (N : Nat) (index : Nat) : Nat :=
  HEADER_SIZE * 8 + index * N

/-- `max_val` of `push`/`set`: `u32::MAX` when `N == 32`, else
`(1u32 << N) - 1`. -/
def maxVal (N : Nat) : Nat :=
  if N = 32 then 4294967295 else 2 ^ N - 1

/-- `push(value)`.  `none` models the panic of the `assert!` on the value
range or of out-of-bounds indexing inside `set_bits`. -/
def push (N : Nat) (c : PackedBitsContainer) (value : Nat) :
    Option PackedBitsContainer :=
  if value > maxVal N then none
  else
    let bit_pos := c.len * N
    let storage := ensure_capacity c.storage (bit_pos + N)
    let bit_offset := data_bit_offset_static N bit_pos
    match set_bits storage bit_offset N value with
    | some s => some (update_len_in_header { storage := s, len := c.len + 1 })
    | none => none

/-- `get(index)`: `some none` is Rust's `None`, `some (some v)` is
`Some(v)`, and the outer `none` models a panic inside `get_bits`. -/
def get (N : Nat) (c : PackedBitsContainer) (index : Nat) :
    Option (Option Nat) :=
  if index ≥ c.len then
    some none
  else
    match get_bits c.storage (HEADER_SIZE * 8 + index * N) N with
    | some raw => some (some (raw % 4294967296))
    | none => none

/-- `set(index, value)`; `none` models the panics of the two `assert!`s
and of out-of-bounds indexing inside `set_bits`. -/
def set (N : Nat) (c : PackedBitsContainer) (index value : Nat) :
    Option PackedBitsContainer :=
  if index ≥ c.len then none
  else if value > maxVal N then none
  else
    let bit_pos := index * N
    let bit_offset := data_bit_offset_static N bit_pos
    match set_bits c.storage bit_offset N value with
    | some s => some { storage := s, len := c.len }
    | none => none

/-- `clear()`: recreates the storage as `HEADER_SIZE` zero bytes and then
only rewrites the length field — the magic and width bytes stay zero. -/
def clear (c : PackedBitsContainer) : PackedBitsContainer :=
  update_len_in_header { storage := List.replicate HEADER_SIZE 0, len := 0 }

end PackedBitsContainer

example : PackedBitsContainer.new_in_memory 7 =
    .ok ⟨[80, 75, 66, 84, 7, 0, 0, 0, 0, 0, 0, 0], 0⟩ := by decide

example : PackedBitsContainer.push 7 ⟨[80, 75, 66, 84, 7, 0, 0, 0, 0, 0, 0, 0], 0⟩ 100 =
    some ⟨[80, 75, 66, 84, 7, 0, 0, 0, 1, 0, 0, 0, 100], 1⟩ := by decide

theorem getD_take (l : List Nat) (n i : Nat) (h : i < n) :
    (l.take n).getD i 0 = l.getD i 0 := by
  simp only [getD_eq_getElem?]
  rw [List.getElem?_take, if_pos h]

/-! ### Claim C2: packed-array persistence round-trip -/

/-- C2 (failing-input evaluation).  The code's own
`test_header_persistence` scenario: a fresh width-7 container accepts the
first push, but the second push computes its write position through
`data_bit_offset_static(bit_pos)` — which multiplies the already-scaled
bit position `len * N` by `N` again — yielding bit offset
`96 + 7 * 7 = 145` in a 14-byte (112-bit) buffer, and panics on
out-of-bounds indexing inside `set_bits`.  The persistence round-trip of
the claim therefore never gets to run for two pushed values. -/
theorem push_second_element_panics :
    PackedBitsContainer.new_in_memory 7 =
      .ok ⟨[80, 75, 66, 84, 7, 0, 0, 0, 0, 0, 0, 0], 0⟩ ∧
    PackedBitsContainer.push 7 ⟨[80, 75, 66, 84, 7, 0, 0, 0, 0, 0, 0, 0], 0⟩ 100 =
      some ⟨[80, 75, 66, 84, 7, 0, 0, 0, 1, 0, 0, 0, 100], 1⟩ ∧
    PackedBitsContainer.push 7 ⟨[80, 75, 66, 84, 7, 0, 0, 0, 1, 0, 0, 0, 100], 1⟩ 50 =
      none := by decide

/-! ### Claim C5: persisted-header invariant across `clear` -/

/-- C5 (failing-input evaluation).  `clear()` recreates the storage as 12
zero bytes and then only rewrites the count field, so the magic `"PKBT"`
and the width are lost; reloading the cleared storage fails with
`InvalidMagic` instead of yielding an empty container. -/
theorem clear_loses_header :
    PackedBitsContainer.new_in_memory 5 =
      .ok ⟨[80, 75, 66, 84, 5, 0, 0, 0, 0, 0, 0, 0], 0⟩ ∧
    PackedBitsContainer.push 5 ⟨[80, 75, 66, 84, 5, 0, 0, 0, 0, 0, 0, 0], 0⟩ 10 =
      some ⟨[80, 75, 66, 84, 5, 0, 0, 0, 1, 0, 0, 0, 10], 1⟩ ∧
    PackedBitsContainer.clear ⟨[80, 75, 66, 84, 5, 0, 0, 0, 1, 0, 0, 0, 10], 1⟩ =
      ⟨[0, 0, 0, 0, 0, 0, 0, 0, 0, 0, 0, 0], 0⟩ ∧
    PackedBitsContainer.from_storage 5 [0, 0, 0, 0, 0, 0, 0, 0, 0, 0, 0, 0] =
      .error .InvalidMagic := by decide

/-! ### Claim C6: width mismatch rejection -/

/-- C6. For every storage buffer carrying a persisted header of width `N`
(magic `"PKBT"`, then `N` as LE u32, then any count), reconstructing with
`M ≠ N`, `M` in `1..=32`, fails with `InvalidN { expected: M, found: N }`. -/
theorem from_storage_width_mismatch (N M cnt : Nat) (storage : List Nat)
    (hN2 : N ≤ 32) (hM1 : 1 ≤ M) (hM2 : M ≤ 32) (hne : M ≠ N)
    (hhdr : storage.take HEADER_SIZE = pkbtMagic ++ le4 N ++ le4 cnt) :
    PackedBitsContainer.from_storage M storage = .error (.InvalidN M N) := by
  have hH : HEADER_SIZE = 12 := rfl
  rw [hH] at hhdr
  have hlen12 : (storage.take 12).length = 12 := by
    rw [hhdr]
    simp [pkbtMagic, le4]
  have hlen : 12 ≤ storage.length := by
    rw [List.length_take] at hlen12
    omega
  have hbytes : ∀ i, i < 12 → storage.getD i 0 = (pkbtMagic ++ le4 N ++ le4 cnt).getD i 0 := by
    intro i hi
    rw [← getD_take storage 12 i hi]
    exact congrArg (fun l => l.getD i 0) hhdr
  have hmagic : storage.take 4 = pkbtMagic := by
    have h1 : (storage.take 12).take 4 = storage.take 4 := by
      rw [List.take_take]
      norm_num
    rw [← h1, hhdr]
    rfl
  have hstored : readLe4 storage 4 = N := by
    rw [readLe4, hbytes 4 (by norm_num), hbytes 5 (by norm_num), hbytes 6 (by norm_num),
      hbytes 7 (by norm_num)]
    simp [pkbtMagic, le4, List.getD]
    omega
  rw [PackedBitsContainer.from_storage, PackedBitsContainer.validate_n, if_pos ⟨hM1, hM2⟩]
  rw [if_neg (by rw [hH]; omega), if_neg (by rw [hmagic]; simp), hstored,
    if_pos (fun hc => hne hc.symm)]

/-- Witness for C6: a buffer actually persisted by a width-7 container
(one successful push), reloaded as width 12. -/
theorem from_storage_width_mismatch_witness :
    (7 ≤ 32 ∧ 1 ≤ 12 ∧ 12 ≤ 32 ∧ 12 ≠ 7 ∧
      ([80, 75, 66, 84, 7, 0, 0, 0, 1, 0, 0, 0, 100] : List Nat).take HEADER_SIZE =
        pkbtMagic ++ le4 7 ++ le4 1) ∧
    PackedBitsContainer.from_storage 12 [80, 75, 66, 84, 7, 0, 0, 0, 1, 0, 0, 0, 100] =
      .error (.InvalidN 12 7) :=
  ⟨⟨by decide, by decide, by decide, by decide, by decide⟩,
    from_storage_width_mismatch 7 12 1 [80, 75, 66, 84, 7, 0, 0, 0, 1, 0, 0, 0, 100]
      (by decide) (by decide) (by decide) (by decide) (by decide)⟩

/-! ### Claim C8: no panic outside documented preconditions -/

/-- C8 (failing-input evaluation).  `from_storage` accepts a 12-byte
buffer with valid magic, matching width 8 and persisted count 1, although
the data region is empty; the subsequent `get(0)` takes the `index < len`
branch and panics inside `get_bits` (out-of-bounds `slice[byte]` at byte
12), instead of returning without panicking. -/
theorem get_panics_on_lying_count :
    PackedBitsContainer.from_storage 8 [80, 75, 66, 84, 8, 0, 0, 0, 1, 0, 0, 0] =
      .ok ⟨[80, 75, 66, 84, 8, 0, 0, 0, 1, 0, 0, 0], 1⟩ ∧
    PackedBitsContainer.get 8 ⟨[80, 75, 66, 84, 8, 0, 0, 0, 1, 0, 0, 0], 1⟩ 0 =
      none ∧
    PackedBitsContainer.get 8 ⟨[80, 75, 66, 84, 8, 0, 0, 0, 1, 0, 0, 0], 1⟩ 5 =
      some none := by decide

/-! ## MTF self-describing format (`mtf/src/lib.rs`)

The `Io` error variant wraps `std::io::Error` and can only arise from
file-system operations, which are not embedded; it is omitted. -/

inductive MTFError where
  | InvalidMagic
  | UnsupportedVersion (v : Nat)
  | UnexpectedEof
  | InvalidUtf8
  | InvalidStringOffset (off : Nat)
deriving DecidableEq, Repr

structure FieldDef where
  name_offset : Nat
  offset_bits : Nat
  size_bits : Nat
deriving DecidableEq, Repr

structure TypeDef where
  name_offset : Nat
  size_bits : Nat
  fields : List FieldDef
deriving DecidableEq, Repr

/-- `b"MTF\0"`. -/
def mtfMagic : List Nat := [77, 84, 70, 0]

/-- Admissible range of the first continuation byte after leading byte
`b`, as in Rust's `core::str::from_utf8` (excluding overlong encodings,
surrogates and code points above U+10FFFF). -/
def utf8FirstCont (b c : Nat) : Bool :=
  if b = 224 then decide (160 ≤ c ∧ c ≤ 191)
  else if b = 237 then decide (128 ≤ c ∧ c ≤ 159)
  else if b = 240 then decide (144 ≤ c ∧ c ≤ 191)
  else if b = 244 then decide (128 ≤ c ∧ c ≤ 143)
  else decide (128 ≤ c ∧ c ≤ 191)

/-- UTF-8 validity of a byte sequence, following `core::str::from_utf8`. -/
def utf8Valid : List Nat → Bool
  | [] => true
  | b :: rest =>
    if b < 128 then utf8Valid rest
    else if b < 194 then false
    else if b ≤ 223 then
      match rest with
      | c1 :: rest2 => decide (128 ≤ c1 ∧ c1 ≤ 191) && utf8Valid rest2
      | [] => false
    else if b ≤ 239 then
      match rest with
      | c1 :: c2 :: rest3 =>
        utf8FirstCont b c1 && decide (128 ≤ c2 ∧ c2 ≤ 191) && utf8Valid rest3
      | _ => false
    else if b ≤ 244 then
      match rest with
      | c1 :: c2 :: c3 :: rest4 =>
        utf8FirstCont b c1 && decide (128 ≤ c2 ∧ c2 ≤ 191) &&
          decide (128 ≤ c3 ∧ c3 ≤ 191) && utf8Valid rest4
      | _ => false
    else false

/-- `read_string(strings, offset)`: bounds check, scan for NUL, UTF-8
validation; the string is modelled as its byte sequence. -/
def read_string (strings : List Nat) (offset : Nat) :
    Except MTFError (List Nat) :=
  if offset ≥ strings.length then .error (.InvalidStringOffset offset)
  else
    let remaining := strings.drop offset
    match remaining.findIdx? (fun b => b == 0) with
    | none => .error .UnexpectedEof
    | some e =>
      let bytes := remaining.take e
      if utf8Valid bytes then .ok bytes else .error .InvalidUtf8

/-- The inner `for _ in 0..fcount` loop of `read_mtf`, reading 12-byte
field records from `pos`; returns the fields and the final position. -/
def readFieldsLoop (data : List Nat) : Nat → Nat → Except MTFError (List FieldDef × Nat)
  | pos, 0 => .ok ([], pos)
  | pos, n + 1 =>
    if pos + 12 > data.length then .error .UnexpectedEof
    else
      match readFieldsLoop data (pos + 12) n with
      | .ok (fs, p) =>
        .ok (⟨readLe4 data pos, readLe4 data (pos + 4), readLe4 data (pos + 8)⟩ :: fs, p)
      | .error e => .error e

/-- The outer `for _ in 0..count` loop of `read_mtf`, reading type
records (12-byte header followed by the field records). -/
def readTypesLoop (data : List Nat) : Nat → Nat → Except MTFError (List TypeDef × Nat)
  | pos, 0 => .ok ([], pos)
  | pos, n + 1 =>
    if pos + 12 > data.length then .error .UnexpectedEof
    else
      match readFieldsLoop data (pos + 12) (readLe4 data (pos + 8)) with
      | .error e => .error e
      | .ok (fields, pos2) =>
        match readTypesLoop data pos2 n with
        | .error e => .error e
        | .ok (ts, p) =>
          .ok (⟨readLe4 data pos, readLe4 data (pos + 4), fields⟩ :: ts, p)

/-- `read_mtf(data)`: magic, version, type table, string table. -/
def read_mtf (data : List Nat) : Except MTFError (List TypeDef × List Nat) :=
  if data.length < 12 then .error .UnexpectedEof
  else if data.take 4 ≠ mtfMagic then .error .InvalidMagic
  else if readLe4 data 4 ≠ 1 then .error (.UnsupportedVersion (readLe4 data 4))
  else
    match readTypesLoop data 12 (readLe4 data 8) with
    | .error e => .error e
    | .ok (types, pos) =>
      if pos + 4 > data.length then .error .UnexpectedEof
      else if pos + 4 + readLe4 data pos > data.length then .error .UnexpectedEof
      else .ok (types, (data.drop (pos + 4)).take (readLe4 data pos))

/-! ## Dynamic reflective accessor (`mtf/src/dynamic.rs`)

`field_map` is the `HashMap<String, FieldDef>` of the source, modelled as
an association list with the map's insert-replaces / lookup-by-key
semantics; keys are the (UTF-8 validated) name byte sequences. -/

def mapInsert : List (List Nat × FieldDef) → List Nat → FieldDef →
    List (List Nat × FieldDef)
  | [], k, v => [(k, v)]
  | (k', v') :: rest, k, v =>
    if k' = k then (k, v) :: rest else (k', v') :: mapInsert rest k v

def mapFind (m : List (List Nat × FieldDef)) (k : List Nat) : Option FieldDef :=
  match m.find? (fun p => p.1 == k) with
  | some p => some p.2
  | none => none

/-- The `for f in &type_def.fields` loop of `from_raw`, resolving each
field's name via the string table and inserting into the map. -/
def buildFieldMap (strings : List Nat) :
    List FieldDef → List (List Nat × FieldDef) →
    Except MTFError (List (List Nat × FieldDef))
  | [], m => .ok m
  | f :: fs, m =>
    match read_string strings f.name_offset with
    | .error e => .error e
    | .ok name => buildFieldMap strings fs (mapInsert m name f)

structure DynamicContainer where
  data : List Nat
  type_def : TypeDef
  strings : List Nat
  struct_size : Nat
  field_map : List (List Nat × FieldDef)
deriving DecidableEq, Repr

namespace DynamicContainer

/-- `from_raw(data, blob)`. -/
def from_raw (data : List Nat) (blob : List Nat) :
    Except MTFError DynamicContainer :=
  match read_mtf blob with
  | .error e => .error e
  | .ok (types, strings) =>
    match types with
    | [] => .error .UnexpectedEof
    | type_def :: _ =>
      match buildFieldMap strings type_def.fields [] with
      | .error e => .error e
      | .ok field_map =>
        .ok { data := data, type_def := type_def, strings := strings,
              struct_size := (type_def.size_bits + 7) / 8, field_map := field_map }

/-- `len()`. -/
def len (c : DynamicContainer) : Nat :=
  if c.struct_size = 0 then 0 else c.data.length / c.struct_size

/-- `type_name()`. -/
def type_name (c : DynamicContainer) : Except MTFError (List Nat) :=
  read_string c.strings c.type_def.name_offset

/-- The shared validation sequence of `field::<T>` / `field_mut::<T>` for
a type `T` of size `tSize` and alignment `tAlign`: index bound, name
lookup, declared-size match, alignment of the byte offset, and the
bounds-checked slice `data.get(field_start..field_end)`; returns
`field_start` on success. -/
def fieldLoc (c : DynamicContainer) (index : Nat) (name : List Nat)
    (tSize tAlign : Nat) : Option Nat :=
  if index ≥ c.len then none
  else
    match mapFind c.field_map name with
    | none => none
    | some field =>
      if (field.size_bits + 7) / 8 ≠ tSize then none
      else if (field.offset_bits / 8) % tAlign ≠ 0 then none
      else if index * c.struct_size + field.offset_bits / 8 + tSize ≤ c.data.length then
        some (index * c.struct_size + field.offset_bits / 8)
      else none

/-- `u16::from_le_bytes` of two bytes (little-endian machine). -/
def readLe2 (data : List Nat) (pos : Nat) : Nat :=
  data.getD pos 0 + 256 * data.getD (pos + 1) 0

/-- `field::<u32>(index, name)` (`size_of::<u32>() = align_of::<u32>() = 4`);
the returned reference is modelled by the little-endian value it points at. -/
def fieldU32 (c : DynamicContainer) (index : Nat) (name : List Nat) : Option Nat :=
  (c.fieldLoc index name 4 4).map (fun s => readLe4 c.data s)

/-- `field::<u16>(index, name)` (`size_of::<u16>() = align_of::<u16>() = 2`). -/
def fieldU16 (c : DynamicContainer) (index : Nat) (name : List Nat) : Option Nat :=
  (c.fieldLoc index name 2 2).map (fun s => readLe2 c.data s)

end DynamicContainer

/-- `FieldHandle<'_, u32>`: either empty or a pointer to the four field
bytes at `loc` inside the container's data buffer. -/
structure FieldHandleU32 where
  loc : Option Nat
deriving DecidableEq, Repr

namespace DynamicContainer

/-- `field_mut::<u32>(index, name)`: same validation as `field::<u32>`,
empty handle on any failure. -/
def field_mutU32 (c : DynamicContainer) (index : Nat) (name : List Nat) :
    FieldHandleU32 :=
  ⟨c.fieldLoc index name 4 4⟩

end DynamicContainer

namespace FieldHandleU32

/-- `is_some()`. -/
def is_some (h : FieldHandleU32) : Bool :=
  h.loc.isSome

/-- `set(v)`: no-op on an empty handle.  The buffer is passed explicitly
(the handle's pointer aliases the container's data in the source). -/
def set (h : FieldHandleU32) (v : Nat) (c : DynamicContainer) : DynamicContainer :=
  match h.loc with
  | none => c
  | some s => { c with data := writeLe4 c.data s v }

/-- `add(v)` (`u32` two's-complement accumulation). -/
def add (h : FieldHandleU32) (v : Nat) (c : DynamicContainer) : DynamicContainer :=
  match h.loc with
  | none => c
  | some s => { c with data := writeLe4 c.data s ((readLe4 c.data s + v) % 4294967296) }

/-- `sub(v)` (`u32` two's-complement subtraction). -/
def sub (h : FieldHandleU32) (v : Nat) (c : DynamicContainer) : DynamicContainer :=
  match h.loc with
  | none => c
  | some s =>
    { c with data :=
        writeLe4 c.data s ((readLe4 c.data s + (4294967296 - v % 4294967296)) % 4294967296) }

/-- `apply(f)`: the closure acts on the `u32` field value (`writeLe4`
truncates the result to 32 bits, as any `u32`-valued closure does). -/
def apply (h : FieldHandleU32) (f : Nat → Nat) (c : DynamicContainer) : DynamicContainer :=
  match h.loc with
  | none => c
  | some s => { c with data := writeLe4 c.data s (f (readLe4 c.data s)) }

end FieldHandleU32

/-- The MTF blob of the source's `create_test_blob()`: one type `"Test"`
of 64 bits with fields `x : u32 @ 0` and `y : u32 @ 32`. -/
def testBlob : List Nat :=
  mtfMagic ++ le4 1 ++ le4 1 ++
    le4 0 ++ le4 64 ++ le4 2 ++
    le4 5 ++ le4 0 ++ le4 32 ++
    le4 7 ++ le4 32 ++ le4 32 ++
    le4 9 ++ [84, 101, 115, 116, 0, 120, 0, 121, 0]

/-- The container of the source's `test_dynamic_container_creation`. -/
def testContainer : DynamicContainer :=
  { data := [1, 2, 3, 4, 5, 6, 7, 8]
    type_def := ⟨0, 64, [⟨5, 0, 32⟩, ⟨7, 32, 32⟩]⟩
    strings := [84, 101, 115, 116, 0, 120, 0, 121, 0]
    struct_size := 8
    field_map := [([120], ⟨5, 0, 32⟩), ([121], ⟨7, 32, 32⟩)] }

example : DynamicContainer.from_raw [1, 2, 3, 4, 5, 6, 7, 8] testBlob =
    .ok testContainer := by decide

example : testContainer.len = 1 := by decide

example : testContainer.fieldU32 0 [120] = some 67305985 := by decide

example : testContainer.fieldU16 0 [120] = none := by decide

example : testContainer.type_name = .ok [84, 101, 115, 116] := by decide

theorem getD_set_ne (l : List Nat) (i j a : Nat) (h : i ≠ j) :
    (l.set i a).getD j 0 = l.getD j 0 := by
  simp only [getD_eq_getElem?]
  rw [List.getElem?_set_ne h]

theorem getD_set_self (l : List Nat) (i a : Nat) (h : i < l.length) :
    (l.set i a).getD i 0 = a := by
  simp only [getD_eq_getElem?]
  rw [List.getElem?_set_eq_of_lt a h]
  rfl

theorem writeLe4_length (data : List Nat) (s v : Nat) :
    (writeLe4 data s v).length = data.length := by
  simp [writeLe4]

theorem readLe4_writeLe4 (data : List Nat) (s v : Nat) (h : s + 4 ≤ data.length) :
    readLe4 (writeLe4 data s v) s = v % 4294967296 := by
  have hl1 : s + 1 < (data.set s (v % 256)).length := by
    simp only [List.length_set]; omega
  have hl2 : s + 2 < ((data.set s (v % 256)).set (s + 1) (v / 256 % 256)).length := by
    simp only [List.length_set]; omega
  have hl3 : s + 3 <
      (((data.set s (v % 256)).set (s + 1) (v / 256 % 256)).set
        (s + 2) (v / 65536 % 256)).length := by
    simp only [List.length_set]; omega
  have e0 : (writeLe4 data s v).getD s 0 = v % 256 := by
    rw [writeLe4, getD_set_ne _ _ _ _ (by omega), getD_set_ne _ _ _ _ (by omega),
      getD_set_ne _ _ _ _ (by omega), getD_set_self _ _ _ (by omega)]
  have e1 : (writeLe4 data s v).getD (s + 1) 0 = v / 256 % 256 := by
    rw [writeLe4, getD_set_ne _ _ _ _ (by omega), getD_set_ne _ _ _ _ (by omega),
      getD_set_self _ _ _ hl1]
  have e2 : (writeLe4 data s v).getD (s + 2) 0 = v / 65536 % 256 := by
    rw [writeLe4, getD_set_ne _ _ _ _ (by omega), getD_set_self _ _ _ hl2]
  have e3 : (writeLe4 data s v).getD (s + 3) 0 = v / 16777216 % 256 := by
    rw [writeLe4, getD_set_self _ _ _ hl3]
  rw [readLe4, e0, e1, e2, e3]
  omega

/-- `fieldLoc` only inspects the data buffer through its length, so any
same-length update of the data leaves it unchanged. -/
theorem fieldLoc_write_stable (c : DynamicContainer) (i : Nat) (name : List Nat)
    (tS tA s' v : Nat) :
    DynamicContainer.fieldLoc { c with data := writeLe4 c.data s' v } i name tS tA =
      c.fieldLoc i name tS tA := by
  have hlen2 : DynamicContainer.len { c with data := writeLe4 c.data s' v } = c.len := by
    rw [DynamicContainer.len, DynamicContainer.len]
    simp [writeLe4_length]
  rw [DynamicContainer.fieldLoc, DynamicContainer.fieldLoc, hlen2]
  cases hm : mapFind c.field_map name with
  | none => simp [hm]
  | some fld => simp [hm, writeLe4_length]

/-- A `fieldLoc` success implies the field's byte range lies inside the
data buffer (the `data.get(start..end)` bounds check of the source). -/
theorem fieldLoc_bound (c : DynamicContainer) (i : Nat) (name : List Nat)
    (tS tA s : Nat) (h : c.fieldLoc i name tS tA = some s) :
    s + tS ≤ c.data.length := by
  rw [DynamicContainer.fieldLoc] at h
  by_cases hge : i ≥ c.len
  · rw [if_pos hge] at h
    exact absurd h (by simp)
  · rw [if_neg hge] at h
    cases hm : mapFind c.field_map name with
    | none =>
      simp only [hm] at h
      exact absurd h (by simp)
    | some fld =>
      simp only [hm] at h
      by_cases hsz : (fld.size_bits + 7) / 8 ≠ tS
      · rw [if_pos hsz] at h
        exact absurd h (by simp)
      · rw [if_neg hsz] at h
        by_cases hal : (fld.offset_bits / 8) % tA ≠ 0
        · rw [if_pos hal] at h
          exact absurd h (by simp)
        · rw [if_neg hal] at h
          by_cases hb : i * c.struct_size + fld.offset_bits / 8 + tS ≤ c.data.length
          · rw [if_pos hb] at h
            injection h with h'
            omega
          · rw [if_neg hb] at h
            exact absurd h (by simp)

/-! ### Claim C3: dynamic field type-safety -/

/-- C3. On a container whose field map has `"x"` (bytes `[120]`) with
declared bit-size 32 at a byte offset that is a multiple of 4, for every
index `i < len()` whose field byte range lies inside the data buffer:
`field::<u16>` returns `None` (declared byte size 4 ≠ 2) while
`field::<u32>` returns the little-endian `u32` of the field's bytes. -/
theorem dynamic_field_type_safety (c : DynamicContainer) (i : Nat) (f : FieldDef)
    (hf : mapFind c.field_map [120] = some f)
    (hsize : f.size_bits = 32)
    (halign : (f.offset_bits / 8) % 4 = 0)
    (hi : i < c.len)
    (hrange : i * c.struct_size + f.offset_bits / 8 + 4 ≤ c.data.length) :
    c.fieldU16 i [120] = none ∧
    c.fieldU32 i [120] =
      some (readLe4 c.data (i * c.struct_size + f.offset_bits / 8)) := by
  have hnotge : ¬i ≥ c.len := by omega
  constructor
  · rw [DynamicContainer.fieldU16, DynamicContainer.fieldLoc, if_neg hnotge]
    simp only [hf, hsize]
    norm_num
  · rw [DynamicContainer.fieldU32, DynamicContainer.fieldLoc, if_neg hnotge]
    simp only [hf, hsize]
    rw [if_neg (by norm_num), if_neg (by omega), if_pos hrange]
    rfl

/-- Witness for C3 on the source's test container (field `x : u32 @ 0`,
data `[1,...,8]`, little-endian value `0x04030201`). -/
theorem dynamic_field_type_safety_witness :
    (mapFind testContainer.field_map [120] = some ⟨5, 0, 32⟩ ∧
      (⟨5, 0, 32⟩ : FieldDef).size_bits = 32 ∧
      ((⟨5, 0, 32⟩ : FieldDef).offset_bits / 8) % 4 = 0 ∧
      0 < testContainer.len ∧
      0 * testContainer.struct_size + (⟨5, 0, 32⟩ : FieldDef).offset_bits / 8 + 4 ≤
        testContainer.data.length) ∧
    testContainer.fieldU16 0 [120] = none ∧
    testContainer.fieldU32 0 [120] = some 67305985 :=
  ⟨⟨by decide, by decide, by decide, by decide, by decide⟩,
    dynamic_field_type_safety testContainer 0 ⟨5, 0, 32⟩
      (by decide) (by decide) (by decide) (by decide) (by decide)⟩

/-! ### Claim C4: field mutation chaining -/

/-- C4. On a container whose `field::<u32>(idx, name)` currently reads
`S` (no `u32` overflow in the chained arithmetic):
`field_mut::<u32>(idx, name).add(10)` makes a subsequent
`field::<u32>(idx, name)` return `Some(S + 10)`; chaining
`add(10).apply(|v| *v *= 2)` leaves the field at `(S + 10) * 2`; and
every handle operation (`set`, `add`, `sub`, `apply`) on an empty handle
is a no-op leaving the buffer unchanged. -/
theorem field_mutation_chaining (c : DynamicContainer) (idx : Nat)
    (name : List Nat) (S : Nat)
    (hS : c.fieldU32 idx name = some S)
    (h1 : S + 10 < 4294967296)
    (h2 : (S + 10) * 2 < 4294967296) :
    DynamicContainer.fieldU32 ((c.field_mutU32 idx name).add 10 c) idx name =
      some (S + 10) ∧
    DynamicContainer.fieldU32
        ((c.field_mutU32 idx name).apply (fun v => v * 2)
          ((c.field_mutU32 idx name).add 10 c)) idx name =
      some ((S + 10) * 2) ∧
    (∀ (c' : DynamicContainer) (v : Nat),
      FieldHandleU32.set ⟨none⟩ v c' = c' ∧
      FieldHandleU32.add ⟨none⟩ v c' = c' ∧
      FieldHandleU32.sub ⟨none⟩ v c' = c' ∧
      ∀ g, FieldHandleU32.apply ⟨none⟩ g c' = c') := by
  rw [DynamicContainer.fieldU32] at hS
  cases hloc : c.fieldLoc idx name 4 4 with
  | none =>
    rw [hloc] at hS
    exact absurd hS (by simp)
  | some s =>
    rw [hloc] at hS
    simp only [Option.map_some'] at hS
    injection hS with hSread
    have hbound : s + 4 ≤ c.data.length := fieldLoc_bound c idx name 4 4 s hloc
    have hhandle : c.field_mutU32 idx name = ⟨some s⟩ := by
      rw [DynamicContainer.field_mutU32, hloc]
    -- the container after `add(10)`
    have hadd : (c.field_mutU32 idx name).add 10 c =
        { c with data := writeLe4 c.data s ((S + 10) % 4294967296) } := by
      rw [hhandle]
      simp only [FieldHandleU32.add]
      rw [hSread]
    have hloc1 : DynamicContainer.fieldLoc
        { c with data := writeLe4 c.data s ((S + 10) % 4294967296) } idx name 4 4 =
        some s := by
      rw [fieldLoc_write_stable, hloc]
    have hread1 : readLe4 (writeLe4 c.data s ((S + 10) % 4294967296)) s = S + 10 := by
      rw [readLe4_writeLe4 _ _ _ hbound]
      omega
    refine ⟨?_, ?_, fun c' v => ⟨rfl, rfl, rfl, fun g => rfl⟩⟩
    · rw [hadd, DynamicContainer.fieldU32, hloc1, Option.map_some', hread1]
    · rw [hadd, hhandle]
      simp only [FieldHandleU32.apply]
      rw [hread1]
      have hbound1 : s + 4 ≤ (writeLe4 c.data s ((S + 10) % 4294967296)).length := by
        rw [writeLe4_length]
        exact hbound
      have hloc2 : DynamicContainer.fieldLoc
          { c with data :=
            (writeLe4 (writeLe4 c.data s ((S + 10) % 4294967296)) s ((S + 10) * 2)) }
          idx name 4 4 = some s := by
        have hst := fieldLoc_write_stable
          { c with data := writeLe4 c.data s ((S + 10) % 4294967296) }
          idx name 4 4 s ((S + 10) * 2)
        rw [hst, hloc1]
      rw [DynamicContainer.fieldU32, hloc2, Option.map_some',
        readLe4_writeLe4 _ _ _ hbound1, Nat.mod_eq_of_lt h2]

/-- Witness for C4 on the test container: field `x` holds
`S = 0x04030201 = 67305985`. -/
theorem field_mutation_chaining_witness :
    (testContainer.fieldU32 0 [120] = some 67305985 ∧
      67305985 + 10 < 4294967296 ∧ (67305985 + 10) * 2 < 4294967296) ∧
    DynamicContainer.fieldU32
        ((testContainer.field_mutU32 0 [120]).add 10 testContainer) 0 [120] =
      some (67305985 + 10) :=
  ⟨⟨by decide, by decide, by decide⟩,
    (field_mutation_chaining testContainer 0 [120] 67305985
      (by decide) (by decide) (by decide)).1⟩

/-! ### Claim C9: eager string-offset validation at construction -/

theorem buildFieldMap_ok_names (strings : List Nat) :
    ∀ (fs : List FieldDef) (m0 m : List (List Nat × FieldDef)),
      buildFieldMap strings fs m0 = .ok m →
      ∀ f ∈ fs, ∃ s, read_string strings f.name_offset = .ok s := by
  intro fs
  induction fs with
  | nil =>
    intro m0 m _ f hf
    exact absurd hf (by simp)
  | cons g gs ih =>
    intro m0 m h f hf
    rw [buildFieldMap] at h
    cases hr : read_string strings g.name_offset with
    | error e =>
      rw [hr] at h
      exact absurd h (by simp)
    | ok name =>
      rw [hr] at h
      rcases List.mem_cons.mp hf with heq | hmem
      · subst heq
        exact ⟨name, hr⟩
      · exact ih (mapInsert m0 name g) m h f hmem

/-- C9, amended.  `from_raw` does validate every FIELD-name offset
eagerly: whenever construction succeeds, every field name of the decoded
type descriptor resolves through `read_string` (so any out-of-bounds,
NUL-less or non-UTF-8 field-name offset makes `from_raw` fail with the
corresponding typed error).  The TYPE-name offset, by contrast, is not
validated at construction — see the counterexample. -/
theorem from_raw_field_names_validated (data blob : List Nat) (c : DynamicContainer)
    (h : DynamicContainer.from_raw data blob = .ok c) :
    ∀ f ∈ c.type_def.fields, ∃ s, read_string c.strings f.name_offset = .ok s := by
  rw [DynamicContainer.from_raw] at h
  cases hm : read_mtf blob with
  | error e =>
    rw [hm] at h
    exact absurd h (by simp)
  | ok ts =>
    obtain ⟨types, strings⟩ := ts
    rw [hm] at h
    cases types with
    | nil => exact absurd h (by simp)
    | cons t rest =>
      cases hb : buildFieldMap strings t.fields [] with
      | error e =>
        simp only [hb] at h
        exact absurd h (by simp)
      | ok m =>
        simp only [hb] at h
        injection h with h'
        subst h'
        exact buildFieldMap_ok_names strings t.fields [] m hb

/-- Witness for C9 at the test blob: construction succeeds and field
`x`'s name offset 5 resolves. -/
theorem from_raw_field_names_validated_witness :
    DynamicContainer.from_raw [1, 2, 3, 4, 5, 6, 7, 8] testBlob = .ok testContainer ∧
    ∃ s, read_string testContainer.strings (⟨5, 0, 32⟩ : FieldDef).name_offset = .ok s :=
  ⟨by decide,
    from_raw_field_names_validated [1, 2, 3, 4, 5, 6, 7, 8] testBlob testContainer
      (by decide) ⟨5, 0, 32⟩ (by decide)⟩

/-- Counterexample for C9 as stated: a blob whose single (field-less)
type has name offset 99, far outside its empty string table.  `from_raw`
nevertheless succeeds, and the string-offset failure only surfaces later
from `type_name()` — so not every string offset referenced by the
descriptor is validated at construction. -/
def blobC9 : List Nat :=
  mtfMagic ++ le4 1 ++ le4 1 ++ le4 99 ++ le4 8 ++ le4 0 ++ le4 0

theorem from_raw_accepts_invalid_type_name :
    DynamicContainer.from_raw [] blobC9 = .ok ⟨[], ⟨99, 8, []⟩, [], 1, []⟩ ∧
    DynamicContainer.type_name ⟨[], ⟨99, 8, []⟩, [], 1, []⟩ =
      .error (.InvalidStringOffset 99) := by decide

/-! ### Claim C10: field-layout validation of untrusted descriptors -/

/-- Counterexample for C10 as stated: a type of `size_bits = 8` with two
fields `a : 32 bits @ bit 0` and `b : 32 bits @ bit 16` — both reach far
beyond `[0, 8)` and their bit ranges `[0, 32)` and `[16, 48)` overlap —
is accepted by `read_mtf` + `from_raw` without any error. -/
def blobC10 : List Nat :=
  mtfMagic ++ le4 1 ++ le4 1 ++
    le4 0 ++ le4 8 ++ le4 2 ++
    le4 2 ++ le4 0 ++ le4 32 ++
    le4 4 ++ le4 16 ++ le4 32 ++
    le4 6 ++ [84, 0, 97, 0, 98, 0]

theorem from_raw_accepts_overlapping_fields :
    DynamicContainer.from_raw [9] blobC10 =
      .ok ⟨[9], ⟨0, 8, [⟨2, 0, 32⟩, ⟨4, 16, 32⟩]⟩, [84, 0, 97, 0, 98, 0], 1,
        [([97], ⟨2, 0, 32⟩), ([98], ⟨4, 16, 32⟩)]⟩ ∧
    (⟨0, 8, [⟨2, 0, 32⟩, ⟨4, 16, 32⟩]⟩ : TypeDef).size_bits = 8 ∧
    (∀ f ∈ (⟨0, 8, [⟨2, 0, 32⟩, ⟨4, 16, 32⟩]⟩ : TypeDef).fields,
      f.offset_bits + f.size_bits > 8) := by decide

/-- C10, amended.  Decoding performs NO overlap or range validation of
field descriptors: `from_raw` succeeds for every blob that parses and
whose field names resolve, regardless of the fields' bit ranges.  Safety
is instead recovered per access: a `fieldLoc` success always denotes a
byte range inside the data buffer. -/
theorem from_raw_no_layout_validation (data blob : List Nat) (t : TypeDef)
    (rest : List TypeDef) (ss : List Nat) (m : List (List Nat × FieldDef))
    (hmtf : read_mtf blob = .ok (t :: rest, ss))
    (hmap : buildFieldMap ss t.fields [] = .ok m) :
    DynamicContainer.from_raw data blob =
      .ok { data := data, type_def := t, strings := ss,
            struct_size := (t.size_bits + 7) / 8, field_map := m } ∧
    (∀ (c : DynamicContainer) (i : Nat) (name : List Nat) (tS tA s : Nat),
      c.fieldLoc i name tS tA = some s → s + tS ≤ c.data.length) := by
  constructor
  · rw [DynamicContainer.from_raw, hmtf]
    simp only [hmap]
  · intro c i name tS tA s h
    exact fieldLoc_bound c i name tS tA s h

/-- Witness for C10 at the overlapping-fields blob. -/
theorem from_raw_no_layout_validation_witness :
    (read_mtf blobC10 =
        .ok ([⟨0, 8, [⟨2, 0, 32⟩, ⟨4, 16, 32⟩]⟩], [84, 0, 97, 0, 98, 0]) ∧
      buildFieldMap [84, 0, 97, 0, 98, 0]
          (⟨0, 8, [⟨2, 0, 32⟩, ⟨4, 16, 32⟩]⟩ : TypeDef).fields [] =
        .ok [([97], ⟨2, 0, 32⟩), ([98], ⟨4, 16, 32⟩)]) ∧
    DynamicContainer.from_raw [9] blobC10 =
      .ok { data := [9], type_def := ⟨0, 8, [⟨2, 0, 32⟩, ⟨4, 16, 32⟩]⟩,
            strings := [84, 0, 97, 0, 98, 0],
            struct_size := ((⟨0, 8, [⟨2, 0, 32⟩, ⟨4, 16, 32⟩]⟩ : TypeDef).size_bits + 7) / 8,
            field_map := [([97], ⟨2, 0, 32⟩), ([98], ⟨4, 16, 32⟩)] } :=
  ⟨⟨by decide, by decide⟩,
    (from_raw_no_layout_validation [9] blobC10 ⟨0, 8, [⟨2, 0, 32⟩, ⟨4, 16, 32⟩]⟩ []
      [84, 0, 97, 0, 98, 0] [([97], ⟨2, 0, 32⟩), ([98], ⟨4, 16, 32⟩)]
      (by decide) (by decide)).1⟩
